import Mathlib

/-!
Verification of the adaptive salt-counting core of `salt_analyzer.py`.

Lines and keys are modelled as `List Char` (Python `str`).  The functions
below are shallow embeddings, translated clause by clause from the Python
source: `extract_salt`, `canonicalize_salt` (with the `HEX_SALT_RE` regex),
`count_salts_memory`, `count_salts_sqlite` / `fetch_counts_sqlite`,
`second_pass_emit` and `preflight_estimate`.

Python `float` expressions inside `preflight_estimate` are modelled by
exact rational arithmetic (`ℚ`); Python's `int(...)` truncation toward
zero is `pyInt` below.  The properties settled about the estimator are
order/floor comparisons that are insensitive to this idealisation.
-/

namespace SaltAnalyzer

/-- A Python string: a finite sequence of unicode code points. -/
abbrev PyStr := List Char

/-- Whether a character is stripped by Python's `line.rstrip("\r\n")`. -/
def isLineBreak (c : Char) : Bool := c = '\r' || c = '\n'

/-- Python `line.rstrip("\r\n")`: drop trailing CR/LF characters. -/
def rstripCRLF (l : PyStr) : PyStr := (l.reverse.dropWhile isLineBreak).reverse

/-- Python `line.split(sep, 1)` restricted to the found case: locate the
first occurrence of `sep` in the string and return the pieces strictly
before and strictly after it; `none` when `sep` does not occur.  (For the
empty separator Python raises `ValueError`; theorems that need the split
assume `sep ≠ []`.) -/
def splitFirst (sep : PyStr) : PyStr → Option (PyStr × PyStr)
  | [] => none
  | c :: rest =>
    if sep.isPrefixOf (c :: rest) then some ([], (c :: rest).drop sep.length)
    else
      match splitFirst sep rest with
      | some (pre, post) => some (c :: pre, post)
      | none => none

/-- `extract_salt(line, sep)` from the source: strip trailing CR/LF, return
`None` for an empty line, split on the first occurrence of `sep`
(`line.split(sep, 1)`), return `None` when the separator is absent or the
right-hand side is empty, otherwise the right-hand side. -/
def extract_salt (line : PyStr) (sep : PyStr) : Option PyStr :=
  let l := rstripCRLF line
  if l = [] then none
  else
    match splitFirst sep l with
    | none => none
    | some (_, salt) => if salt = [] then none else some salt

/-- The character class `[0-9A-Fa-f]` of `HEX_SALT_RE`, by code point. -/
def isHexDigitCh (c : Char) : Bool :=
  (48 ≤ c.toNat && c.toNat ≤ 57) || (65 ≤ c.toNat && c.toNat ≤ 70) ||
    (97 ≤ c.toNat && c.toNat ≤ 102)

/-- Matcher for the body of `HEX_SALT_RE` after the literal `$HEX[` prefix:
a run of hex digits closed by `]` at the end of the string.  Python's `$`
anchor also matches just before a single trailing `"\n"`, which is
reproduced here. -/
def parseHexBody : PyStr → Option PyStr
  | [] => none
  | c :: rest =>
    if isHexDigitCh c then (parseHexBody rest).map (fun h => c :: h)
    else if c = ']' ∧ (rest = [] ∨ rest = ['\n']) then some []
    else none

/-- `HEX_SALT_RE.match(s)`: `re.compile(r"^\$HEX\[(?P<h>[0-9A-Fa-f]*)\]$")`.
Returns the captured group `h` on success. -/
def hexSaltMatch : PyStr → Option PyStr
  | '$' :: 'H' :: 'E' :: 'X' :: '[' :: rest => parseHexBody rest
  | _ => none

/-- Python `str.lower()` restricted to its action on the characters at
hand (ASCII): map `A`-`Z` (code points 65-90) to the corresponding
lower-case letter, leave everything else unchanged. -/
def pyLower (c : Char) : Char :=
  if 65 ≤ c.toNat ∧ c.toNat ≤ 90 then Char.ofNat (c.toNat + 32) else c

/-- `canonicalize_salt(s, hex_handling)` from the source: under `"keep"`
return `s` unchanged; otherwise, if `HEX_SALT_RE` matches, rebuild
`f"$HEX[{m.group('h').lower()}]"`, else return `s` unchanged. -/
def canonicalize_salt (s : PyStr) (hex_handling : String) : PyStr :=
  if hex_handling = "keep" then s
  else
    match hexSaltMatch s with
    | some h => '$' :: 'H' :: 'E' :: 'X' :: '[' :: (h.map pyLower ++ [']'])
    | none => s

/-- A count-table row: a canonical key together with its occurrence count. -/
abbrev Row := PyStr × Nat

/-- `counts[salt] += 1` on a Python `Counter` (and equally the SQLite
`INSERT ... ON CONFLICT(salt) DO UPDATE SET c = c + 1` upsert): bump the
count of an existing key in place, or append a fresh key with count 1.
The list order is key first-insertion order, as in a Python dict. -/
def incr : List Row → PyStr → List Row
  | [], k => [(k, 1)]
  | (k', c) :: rest, k =>
    if k' = k then (k', c + 1) :: rest else (k', c) :: incr rest k

/-- Result of one full counting pass: the count table plus the
`total` / `bad` line tallies. -/
structure PassResult where
  table : List Row
  total : Nat
  bad : Nat

/-- The per-line body of the `count_salts_memory` loop: count every line,
tally lines without an extractable salt as bad, otherwise canonicalize
and increment. -/
def countLine (sep : PyStr) (hex : String) (st : PassResult) (line : PyStr) :
    PassResult :=
  match extract_salt line sep with
  | none => ⟨st.table, st.total + 1, st.bad + 1⟩
  | some s => ⟨incr st.table (canonicalize_salt s hex), st.total + 1, st.bad⟩

/-- `count_salts_memory` from the source: fold the per-line body over the
decoded lines of the input, starting from an empty `Counter`. -/
def count_salts_memory (lines : List PyStr) (sep : PyStr) (hex : String) :
    PassResult :=
  lines.foldl (countLine sep hex) ⟨[], 0, 0⟩

/-- Row `a` may precede row `b` in `Counter.most_common()` output:
`a`'s count is at least `b`'s. -/
def memLE (a b : Row) : Prop := b.2 ≤ a.2

instance : DecidableRel memLE := fun a b => by unfold memLE; infer_instance

/-- `Counter.most_common()` with no argument: CPython sorts the items of
the counter (in key first-insertion order) by count, descending, with a
stable sort, so ties keep first-insertion order.  `List.insertionSort`
with `memLE` is exactly that stable descending sort. -/
def most_common (t : List Row) : List Row :=
  List.insertionSort memLE t

/-- Row `a` may precede row `b` under `ORDER BY c DESC, salt ASC`:
strictly larger count, or equal counts and key not after.  The key order
is the lexicographic (memcmp-style) order on code points, which is how
SQLite compares `TEXT` values stored as UTF-8. -/
def fetchLE (a b : Row) : Prop := b.2 < a.2 ∨ (a.2 = b.2 ∧ ¬ b.1 < a.1)

instance : DecidableRel fetchLE := fun a b => by unfold fetchLE; infer_instance

/-- `fetch_counts_sqlite`: read all rows of the on-disk table sorted by
`ORDER BY c DESC, salt ASC`.  Keys in the table are unique, so this total
preorder has a unique sorted arrangement; any sort computes it. -/
def fetch_counts_sqlite (table : List Row) : List Row :=
  List.insertionSort fetchLE table

/-- State of the `count_salts_sqlite` loop: the persistent table contents,
the pending un-flushed batch, and the line tallies. -/
structure SqliteState where
  table : List Row
  batch : List PyStr
  total : Nat
  bad : Nat

/-- `BATCH_SIZE = 5000` from the source. -/
def BATCH_SIZE : Nat := 5000

/-- `flush_batch()` from the source: apply the upsert for every salt of
the pending batch, in order, then clear the batch. -/
def flush_batch (st : SqliteState) : SqliteState :=
  ⟨st.batch.foldl incr st.table, [], st.total, st.bad⟩

/-- The per-line body of the `count_salts_sqlite` loop: tally, extract,
canonicalize, append to the batch, and flush once the batch reaches
`BATCH_SIZE`. -/
def sqliteLine (sep : PyStr) (hex : String) (st : SqliteState) (line : PyStr) :
    SqliteState :=
  match extract_salt line sep with
  | none => ⟨st.table, st.batch, st.total + 1, st.bad + 1⟩
  | some s =>
    let batch := st.batch ++ [canonicalize_salt s hex]
    let st' : SqliteState := ⟨st.table, batch, st.total + 1, st.bad⟩
    if BATCH_SIZE ≤ batch.length then flush_batch st' else st'

/-- `count_salts_sqlite` from the source: fold the per-line body over the
lines, flush the final partial batch, and return the table contents with
the tallies.  (The db-path plumbing and the `PRAGMA`/`CREATE TABLE` setup
carry no counting behaviour.) -/
def count_salts_sqlite (lines : List PyStr) (sep : PyStr) (hex : String) :
    PassResult :=
  let st := flush_batch (lines.foldl (sqliteLine sep hex) ⟨[], [], 0, 0⟩)
  ⟨st.table, st.total, st.bad⟩

/-- Result of `second_pass_emit`: the lines written to the combined
destination, in order, and the `examined` / `emitted` tallies. -/
structure EmitResult where
  combined : List PyStr
  examined : Nat
  emitted : Nat
deriving DecidableEq

/-- The per-line body of the `second_pass_emit` loop: count the line as
examined; skip it when no salt extracts or the canonical key is not
selected; otherwise write the original line to the combined destination
(when one is configured) and count it as emitted.  The per-key
destinations (the `writers` dict) receive exactly the same lines grouped
by key; their file naming (`sanitize_for_filename`, an md5 digest) is
presentation and is not modelled. -/
def emitLine (sep : PyStr) (hex : String) (selected : List PyStr)
    (combinedDest : Bool) (st : EmitResult) (line : PyStr) : EmitResult :=
  match extract_salt line sep with
  | none => ⟨st.combined, st.examined + 1, st.emitted⟩
  | some raw =>
    if canonicalize_salt raw hex ∈ selected then
      ⟨if combinedDest then st.combined ++ [line] else st.combined,
        st.examined + 1, st.emitted + 1⟩
    else ⟨st.combined, st.examined + 1, st.emitted⟩

/-- `second_pass_emit` from the source, for a caller-supplied selection
set and a combined destination switch. -/
def second_pass_emit (lines : List PyStr) (sep : PyStr) (hex : String)
    (selected : List PyStr) (combinedDest : Bool) : EmitResult :=
  lines.foldl (emitLine sep hex selected combinedDest) ⟨[], 0, 0⟩

/-- Whether a line passes the emission test of `second_pass_emit`: its
extracted, canonicalized salt lies in the selection set. -/
def lineSelected (sep : PyStr) (hex : String) (selected : List PyStr)
    (line : PyStr) : Bool :=
  match extract_salt line sep with
  | none => false
  | some raw => decide (canonicalize_salt raw hex ∈ selected)

/-- Python `int(x)` on the exact rational value of `x`: truncation toward
zero, `Int.tdiv` of numerator by denominator. -/
def pyInt (q : ℚ) : ℤ := Int.tdiv q.num (q.den : ℤ)

/-- State of the `preflight_estimate` sampling loop: `lines`, `valid`,
the `uniq` set (as a duplicate-free list), `salt_len_sum`, `bytes_sum`. -/
structure SampleState where
  lines : Nat
  valid : Nat
  uniq : List PyStr
  salt_len_sum : Nat
  bytes_sum : Nat
deriving DecidableEq

/-- Parameters of `preflight_estimate`.  `byteLen` models
`len(line.encode(encoding, errors="ignore"))` (the encoded byte length of
a decoded line, which need not match the on-disk byte count); `getsize`
models `os.path.getsize(path)` with `none` for an `OSError`; the four
rationals are the CLI float knobs. -/
structure PreflightParams where
  sep : PyStr
  hex : String
  byteLen : PyStr → Nat
  sample_lines : Nat
  is_gz : Bool
  getsize : Option Nat
  gz_multiplier : ℚ
  uniq_growth : ℚ
  overhead_base : ℚ
  overhead_per_char : ℚ

/-- One iteration of the sampling loop of `preflight_estimate`. -/
def sampleStep (p : PreflightParams) (st : SampleState) (line : PyStr) :
    SampleState :=
  let bytes := st.bytes_sum + p.byteLen line
  match extract_salt line p.sep with
  | none => ⟨st.lines + 1, st.valid, st.uniq, st.salt_len_sum, bytes⟩
  | some s0 =>
    let s := canonicalize_salt s0 p.hex
    ⟨st.lines + 1, st.valid + 1,
      if s ∈ st.uniq then st.uniq else st.uniq ++ [s],
      st.salt_len_sum + s.length, bytes⟩

/-- The sampling loop of `preflight_estimate`: process lines until the
input ends or `lines >= sample_lines` after a line. -/
def sampleLoop (p : PreflightParams) : List PyStr → SampleState → SampleState
  | [], st => st
  | l :: rest, st =>
    let st' := sampleStep p st l
    if p.sample_lines ≤ st'.lines then st' else sampleLoop p rest st'

/-- Result of `preflight_estimate`: the memory estimate (`none` models
Python's `None`) and the fields of the debug dictionary used by the
claims. -/
structure PreflightOut where
  mem_est : Option ℤ
  lines_sampled : Nat
  uniq_sample : Nat
  lines_est : Option ℤ
  uniq_est : ℤ

/-- `preflight_estimate` from the source: sample, return "no estimate" on
an empty or key-less sample, else project the total line count from the
file size (uncompressed sources only), project the unique-key count, and
price it at `overhead_base + overhead_per_char * avg_salt_len` bytes per
key.  Python float expressions are computed in exact rational
arithmetic. -/
def preflight_estimate (p : PreflightParams) (input : List PyStr) :
    PreflightOut :=
  let st := sampleLoop p input ⟨0, 0, [], 0, 0⟩
  if st.lines = 0 ∨ st.valid = 0 then ⟨none, st.lines, 0, none, 0⟩
  else
    let avg_bytes : ℚ := (st.bytes_sum : ℚ) / (st.lines : ℚ)
    let avg_salt_len : ℚ :=
      if st.valid ≠ 0 then (st.salt_len_sum : ℚ) / (st.valid : ℚ) else 8
    let u := st.uniq.length
    let lines_est : Option ℤ :=
      if p.is_gz = false then
        match p.getsize with
        | some tb => some (max 1 (pyInt ((tb : ℚ) / max 1 avg_bytes)))
        | none => none
      else none
    let uniq_est : ℤ :=
      match lines_est with
      | some L =>
        pyInt (min (L : ℚ)
          (max (u : ℚ) (p.uniq_growth * ((u : ℚ) / (st.lines : ℚ)) * (L : ℚ))))
      | none => pyInt (max (u : ℚ) (p.uniq_growth * (u : ℚ) * p.gz_multiplier))
    let mem_per_unique : ℚ := p.overhead_base + p.overhead_per_char * avg_salt_len
    ⟨some (pyInt (mem_per_unique * (uniq_est : ℚ))), st.lines, u, lines_est,
      uniq_est⟩

/-! ### Facts about `incr` -/

/-- Sum of all counts in a table. -/
def sumCounts (t : List Row) : Nat := (t.map fun r => r.2).sum

/-- Keys of a table, in first-insertion order. -/
def keys (t : List Row) : List PyStr := t.map fun r => r.1

theorem sumCounts_incr (t : List Row) (k : PyStr) :
    sumCounts (incr t k) = sumCounts t + 1 := by
  induction t with
  | nil => simp [incr, sumCounts]
  | cons r rest ih =>
    obtain ⟨k', c⟩ := r
    by_cases h : k' = k <;> simp [incr, h, sumCounts] at ih ⊢ <;> omega

theorem keys_incr (t : List Row) (k : PyStr) :
    keys (incr t k) = if k ∈ keys t then keys t else keys t ++ [k] := by
  induction t with
  | nil => simp [incr, keys]
  | cons r rest ih =>
    obtain ⟨k', c⟩ := r
    by_cases h : k' = k
    · simp [incr, h, keys]
    · have hne : ¬ k = k' := fun e => h e.symm
      simp only [keys, List.map_cons] at ih ⊢
      simp only [incr, if_neg h, List.map_cons, ih]
      by_cases hm : k ∈ List.map (fun r => r.1) rest <;>
        simp [List.mem_cons, hne, hm]

theorem nodup_keys_incr {t : List Row} (h : (keys t).Nodup) (k : PyStr) :
    (keys (incr t k)).Nodup := by
  rw [keys_incr]
  split
  · exact h
  · next hk => simp [List.nodup_append, h, hk]

theorem incr_entries {t : List Row} {k : PyStr}
    (h : ∀ r ∈ t, r.1 ≠ [] ∧ 1 ≤ r.2) (hk : k ≠ []) :
    ∀ r ∈ incr t k, r.1 ≠ [] ∧ 1 ≤ r.2 := by
  induction t with
  | nil => simpa [incr] using hk
  | cons r rest ih =>
    obtain ⟨k', c⟩ := r
    intro x hx
    by_cases hkk : k' = k
    · simp [incr, hkk] at hx
      rcases hx with hx | hx
      · subst hx
        exact ⟨(h (k, c) (by simp [hkk])).1, by omega⟩
      · exact h x (List.mem_cons_of_mem _ hx)
    · simp [incr, hkk] at hx
      rcases hx with hx | hx
      · subst hx
        exact h (k', c) (by simp)
      · exact ih (fun y hy => h y (List.mem_cons_of_mem _ hy)) x hx

/-! ### The two counting backends build the same table -/

/-- The observable content of an in-flight sqlite pass: the table as it
will stand once the pending batch is flushed, plus the tallies. -/
def toPass (st : SqliteState) : PassResult :=
  ⟨st.batch.foldl incr st.table, st.total, st.bad⟩

theorem toPass_sqliteLine (sep : PyStr) (hex : String) (st : SqliteState)
    (l : PyStr) :
    toPass (sqliteLine sep hex st l) = countLine sep hex (toPass st) l := by
  cases h : extract_salt l sep with
  | none => simp [sqliteLine, countLine, toPass, flush_batch, h]
  | some s =>
    by_cases hb : BATCH_SIZE ≤ st.batch.length + 1 <;>
      simp [sqliteLine, countLine, toPass, flush_batch, h, hb, List.foldl_append]

theorem toPass_foldl (sep : PyStr) (hex : String) (lines : List PyStr)
    (st : SqliteState) :
    toPass (lines.foldl (sqliteLine sep hex) st) =
      lines.foldl (countLine sep hex) (toPass st) := by
  induction lines generalizing st with
  | nil => rfl
  | cons l rest ih => rw [List.foldl_cons, List.foldl_cons, ih, toPass_sqliteLine]

theorem count_salts_sqlite_eq_memory (lines : List PyStr) (sep : PyStr)
    (hex : String) :
    count_salts_sqlite lines sep hex = count_salts_memory lines sep hex := by
  unfold count_salts_sqlite count_salts_memory
  have h := toPass_foldl sep hex lines ⟨[], [], 0, 0⟩
  have h2 : toPass (⟨[], [], 0, 0⟩ : SqliteState) = (⟨[], 0, 0⟩ : PassResult) := rfl
  rw [h2] at h
  rw [← h]
  rfl

/-! ### Extraction and canonicalization never produce an empty key -/

theorem extract_salt_some_ne_nil {line sep s : PyStr}
    (h : extract_salt line sep = some s) : s ≠ [] := by
  unfold extract_salt at h
  by_cases h1 : rstripCRLF line = []
  · simp [h1] at h
  · simp only [h1, if_false] at h
    cases h2 : splitFirst sep (rstripCRLF line) with
    | none => simp [h2] at h
    | some pr =>
      obtain ⟨pre, salt⟩ := pr
      simp only [h2] at h
      by_cases h3 : salt = []
      · simp [h3] at h
      · simp only [h3, if_false, Option.some.injEq] at h
        exact h ▸ h3

theorem canonicalize_salt_ne_nil {s : PyStr} (h : s ≠ []) (hex : String) :
    canonicalize_salt s hex ≠ [] := by
  unfold canonicalize_salt
  split
  · exact h
  · cases hm : hexSaltMatch s <;> simp [hm, h]

/-! ### Tallies and invariants of a full memory pass -/

theorem countLine_total (sep : PyStr) (hex : String) (st : PassResult)
    (l : PyStr) : (countLine sep hex st l).total = st.total + 1 := by
  unfold countLine; cases extract_salt l sep <;> rfl

theorem foldl_countLine_total (sep : PyStr) (hex : String) (lines : List PyStr)
    (st : PassResult) :
    (lines.foldl (countLine sep hex) st).total = st.total + lines.length := by
  induction lines generalizing st with
  | nil => rfl
  | cons l rest ih =>
    rw [List.foldl_cons, ih, countLine_total]
    simp; omega

theorem foldl_countLine_bad (sep : PyStr) (hex : String) (lines : List PyStr)
    (st : PassResult) :
    (lines.foldl (countLine sep hex) st).bad =
      st.bad + lines.countP (fun l => (extract_salt l sep).isNone) := by
  induction lines generalizing st with
  | nil => simp
  | cons l rest ih =>
    rw [List.foldl_cons, ih]
    cases h : extract_salt l sep <;>
        simp [countLine, h, List.countP_cons] <;> try omega

theorem foldl_countLine_sum (sep : PyStr) (hex : String) (lines : List PyStr)
    (st : PassResult) :
    sumCounts (lines.foldl (countLine sep hex) st).table =
      sumCounts st.table +
        lines.countP (fun l => (extract_salt l sep).isSome) := by
  induction lines generalizing st with
  | nil => simp
  | cons l rest ih =>
    rw [List.foldl_cons, ih]
    cases h : extract_salt l sep <;>
        simp [countLine, h, List.countP_cons, sumCounts_incr] <;> try omega

theorem foldl_countLine_entries (sep : PyStr) (hex : String)
    (lines : List PyStr) (st : PassResult)
    (h : ∀ r ∈ st.table, r.1 ≠ [] ∧ 1 ≤ r.2) :
    ∀ r ∈ (lines.foldl (countLine sep hex) st).table, r.1 ≠ [] ∧ 1 ≤ r.2 := by
  induction lines generalizing st with
  | nil => exact h
  | cons l rest ih =>
    rw [List.foldl_cons]
    refine ih _ ?_
    cases hx : extract_salt l sep with
    | none => simpa [countLine, hx] using h
    | some s =>
      simp only [countLine, hx]
      exact incr_entries h
        (canonicalize_salt_ne_nil (extract_salt_some_ne_nil hx) hex)

theorem foldl_countLine_nodup (sep : PyStr) (hex : String)
    (lines : List PyStr) (st : PassResult) (h : (keys st.table).Nodup) :
    (keys (lines.foldl (countLine sep hex) st).table).Nodup := by
  induction lines generalizing st with
  | nil => exact h
  | cons l rest ih =>
    rw [List.foldl_cons]
    refine ih _ ?_
    cases hx : extract_salt l sep with
    | none => simpa [countLine, hx] using h
    | some s =>
      simp only [countLine, hx]
      exact nodup_keys_incr h _

/-! ### The two result orderings -/

instance : IsTotal Row memLE := ⟨fun a b => Nat.le_total b.2 a.2⟩

instance : IsTrans Row memLE := ⟨fun _ _ _ hab hbc => le_trans hbc hab⟩

instance : IsTotal Row fetchLE := ⟨fun a b => by
  unfold fetchLE
  rcases Nat.lt_trichotomy a.2 b.2 with h | h | h
  · exact Or.inr (Or.inl h)
  · rcases le_total a.1 b.1 with hk | hk
    · exact Or.inl (Or.inr ⟨h, not_lt.mpr hk⟩)
    · exact Or.inr (Or.inr ⟨h.symm, not_lt.mpr hk⟩)
  · exact Or.inl (Or.inl h)⟩

instance : IsTrans Row fetchLE := ⟨fun a b c hab hbc => by
  unfold fetchLE at hab hbc ⊢
  rcases hab with h1 | ⟨h1, hk1⟩ <;> rcases hbc with h2 | ⟨h2, hk2⟩
  · exact Or.inl (lt_trans h2 h1)
  · exact Or.inl (by omega)
  · exact Or.inl (by omega)
  · exact Or.inr ⟨h1.trans h2,
      fun hlt => hk1 (lt_of_le_of_lt (not_lt.mp hk2) hlt)⟩⟩

theorem most_common_perm (t : List Row) : (most_common t).Perm t :=
  List.perm_insertionSort _ _

theorem most_common_pairwise (t : List Row) :
    (most_common t).Pairwise memLE :=
  List.sorted_insertionSort _ _

theorem fetch_counts_sqlite_perm (t : List Row) : (fetch_counts_sqlite t).Perm t :=
  List.perm_insertionSort _ _

theorem fetch_counts_sqlite_pairwise (t : List Row) :
    (fetch_counts_sqlite t).Pairwise fetchLE :=
  List.sorted_insertionSort _ _

/-- Row `a` must strictly precede row `b` under `ORDER BY c DESC, salt
ASC`: larger count, or equal counts and strictly smaller key. -/
def fetchLT (a b : Row) : Prop := b.2 < a.2 ∨ (a.2 = b.2 ∧ a.1 < b.1)

instance : DecidableRel fetchLT := fun a b => by unfold fetchLT; infer_instance

theorem fetch_counts_sqlite_pairwise_strict {t : List Row}
    (h : (keys t).Nodup) : (fetch_counts_sqlite t).Pairwise fetchLT := by
  have hs := fetch_counts_sqlite_pairwise t
  have hnd : (keys (fetch_counts_sqlite t)).Nodup := by
    unfold keys
    exact (List.Perm.nodup_iff ((fetch_counts_sqlite_perm t).map _)).mpr h
  have hkeys : (fetch_counts_sqlite t).Pairwise fun a b : Row => a.1 ≠ b.1 :=
    (List.pairwise_map).mp hnd
  refine (hs.and hkeys).imp ?_
  rintro a b ⟨hle | ⟨hcnt, hnlt⟩, hne⟩
  · exact Or.inl hle
  · exact Or.inr ⟨hcnt, lt_of_le_of_ne (not_lt.mp hnlt) hne⟩

/-! ### Claims C1, C2: result sequences of the two backends -/

/-- A tie-breaking input: two distinct keys, both with count 1, first
encountered in descending key order. -/
def linesTie : List PyStr := ["h1:b\n".toList, "h2:a\n".toList]

/-- Claim C1, counterexample.  On the input lines `"h1:b\n"`, `"h2:a\n"`
with separator `":"`, both counts are 1; `most_common` keeps
first-encounter order `[(b,1), (a,1)]` while the SQLite `ORDER BY c DESC,
salt ASC` returns `[(a,1), (b,1)]`, so the two sorted sequences are not
identical. -/
theorem C1_counterexample :
    most_common (count_salts_memory linesTie (":".toList) "keep").table ≠
      fetch_counts_sqlite
        (count_salts_sqlite linesTie (":".toList) "keep").table := by
  decide

/-- Claim C1 (amended): for every input and identical parameters the two
backends produce the same multiset of `(key, count)` pairs — the two
result sequences are permutations of each other — but the relative order
of keys with equal counts may differ (in-memory: first-encounter order;
on-disk: ascending key). -/
theorem C1_backends_agree_up_to_tie_order (lines : List PyStr) (sep : PyStr)
    (hex : String) :
    (most_common (count_salts_memory lines sep hex).table).Perm
      (fetch_counts_sqlite (count_salts_sqlite lines sep hex).table) := by
  rw [count_salts_sqlite_eq_memory]
  exact (most_common_perm _).trans (fetch_counts_sqlite_perm _).symm

/-- Claim C2, counterexample.  For the in-memory backend on the input
lines `"h1:b\n"`, `"h2:a\n"`, the exposed result sequence is
`[(b,1), (a,1)]`, which is not ordered by descending count with ties
broken by ascending key, and it depends on first-encounter order. -/
theorem C2_counterexample :
    ¬ (most_common
        (count_salts_memory linesTie (":".toList) "keep").table).Pairwise
        fetchLT := by
  decide

/-- Claim C2 (amended): the result sequence is sorted by descending count
under both backends; for the on-disk backend ties are additionally broken
by ascending canonical key (a total order independent of insertion
order), while the in-memory backend keeps first-encounter order among
equal counts. -/
theorem C2_result_sequences_sorted (lines : List PyStr) (sep : PyStr)
    (hex : String) :
    (most_common (count_salts_memory lines sep hex).table).Pairwise memLE ∧
      (fetch_counts_sqlite
        (count_salts_sqlite lines sep hex).table).Pairwise fetchLT := by
  refine ⟨most_common_pairwise _, ?_⟩
  rw [count_salts_sqlite_eq_memory]
  refine fetch_counts_sqlite_pairwise_strict ?_
  exact foldl_countLine_nodup sep hex lines ⟨[], 0, 0⟩ (by simp [keys])

/-! ### Claim C5: line conservation -/

theorem countP_some_add_none (sep : PyStr) (lines : List PyStr) :
    lines.countP (fun l => (extract_salt l sep).isSome) +
      lines.countP (fun l => (extract_salt l sep).isNone) = lines.length := by
  induction lines with
  | nil => rfl
  | cons l rest ih =>
    cases h : extract_salt l sep <;>
        simp [List.countP_cons, h] <;> try omega

/-- Claim C5: after a full pass under either backend,
`invalid_lines + valid_lines_with_key = total_lines` (where the lines
with a key are those on which `extract_salt` succeeds), the sum of all
counts in the table equals the number of lines with a key, hence the sum
of the counts plus the bad tally equals the total, and the total is the
number of input lines. -/
theorem C5_line_conservation (lines : List PyStr) (sep : PyStr)
    (hex : String) :
    (count_salts_memory lines sep hex).bad +
        lines.countP (fun l => (extract_salt l sep).isSome) =
      (count_salts_memory lines sep hex).total ∧
    (count_salts_memory lines sep hex).bad +
        sumCounts (count_salts_memory lines sep hex).table =
      (count_salts_memory lines sep hex).total ∧
    (count_salts_sqlite lines sep hex).bad +
        sumCounts (count_salts_sqlite lines sep hex).table =
      (count_salts_sqlite lines sep hex).total ∧
    (count_salts_memory lines sep hex).total = lines.length := by
  rw [count_salts_sqlite_eq_memory]
  unfold count_salts_memory
  rw [foldl_countLine_total, foldl_countLine_bad, foldl_countLine_sum]
  have h := countP_some_add_none sep lines
  simp [sumCounts]
  omega

/-! ### Claim C9: table entries are non-empty keys with positive counts -/

/-- Claim C9: every row of the count table produced by either backend has
a non-empty key and a count of at least 1. -/
theorem C9_table_entries (lines : List PyStr) (sep : PyStr) (hex : String)
    (r : Row)
    (h : r ∈ (count_salts_memory lines sep hex).table ∨
      r ∈ (count_salts_sqlite lines sep hex).table) :
    r.1 ≠ [] ∧ 1 ≤ r.2 := by
  rw [count_salts_sqlite_eq_memory, or_self] at h
  exact foldl_countLine_entries sep hex lines ⟨[], 0, 0⟩ (by simp) r h

/-- Witness for claim C9 at a concrete input. -/
theorem C9_table_entries_witness :
    ("b".toList, 1).1 ≠ [] ∧ 1 ≤ (("b".toList, 1) : Row).2 :=
  C9_table_entries ["a:b".toList] (":".toList) "keep" ("b".toList, 1)
    (Or.inl (by decide))

/-! ### Claim C3: extraction splits on the first separator -/

/-- Claim C3, counterexample.  On the raw line `"abc:\n"` with separator
`":"`, the separator occurs and the part to the right of its first
occurrence (`"\n"`) is non-empty, yet `extract_salt` returns `None`
(because it first strips the trailing line break), refuting the claimed
"exactly when" characterization over raw lines. -/
theorem C3_counterexample :
    extract_salt "abc:\n".toList ":".toList = none ∧
      splitFirst ":".toList "abc:\n".toList =
        some ("abc".toList, "\n".toList) ∧
      "\n".toList ≠ ([] : PyStr) := by
  decide

/-- Claim C3 (amended): for every non-empty separator, `extract_salt`
first strips trailing CR/LF characters from the line; on the stripped
line it splits at the first occurrence of the separator (so `"abc:de:f"`
with `":"` yields `"de:f"`), and it returns `None` exactly when the
separator is absent from the stripped line or the part to the right of
the first separator in the stripped line is empty. -/
theorem C3_extract_first_split (line sep : PyStr) (hsep : sep ≠ []) :
    (extract_salt line sep = none ↔
      splitFirst sep (rstripCRLF line) = none ∨
        ∃ pre, splitFirst sep (rstripCRLF line) = some (pre, [])) ∧
    (∀ pre post, splitFirst sep (rstripCRLF line) = some (pre, post) →
      post ≠ [] → extract_salt line sep = some post) ∧
    extract_salt "abc:de:f".toList ":".toList = some "de:f".toList := by
  refine ⟨?_, ?_, by decide⟩
  · unfold extract_salt
    by_cases h1 : rstripCRLF line = []
    · simp [h1, splitFirst]
    · simp only [h1, if_false]
      cases h2 : splitFirst sep (rstripCRLF line) with
      | none => simp
      | some pr =>
        obtain ⟨pre, salt⟩ := pr
        by_cases h3 : salt = [] <;> simp [h3]
  · intro pre post hsp hpost
    unfold extract_salt
    have h1 : rstripCRLF line ≠ [] := by
      intro e
      rw [e] at hsp
      simp [splitFirst] at hsp
    simp [h1, hsp, hpost]

/-- Witness for claim C3 (amended) at line `"h:x\n"`, separator `":"`. -/
theorem C3_extract_first_split_witness :
    (":".toList : PyStr) ≠ [] ∧
      (extract_salt "h:x\n".toList ":".toList = none ↔
        splitFirst ":".toList (rstripCRLF "h:x\n".toList) = none ∨
          ∃ pre, splitFirst ":".toList (rstripCRLF "h:x\n".toList) =
            some (pre, [])) :=
  ⟨by decide, (C3_extract_first_split "h:x\n".toList ":".toList (by decide)).1⟩

/-! ### Claim C4: canonicalization is idempotent -/

theorem charOfNat_toNat {n : Nat} (h : n < 55296) :
    (Char.ofNat n).toNat = n := by
  unfold Char.ofNat
  rw [dif_pos (Or.inl h)]
  rfl

theorem pyLower_idem (c : Char) : pyLower (pyLower c) = pyLower c := by
  unfold pyLower
  split
  · next hc =>
    have h1 : (Char.ofNat (c.toNat + 32)).toNat = c.toNat + 32 :=
      charOfNat_toNat (by omega)
    rw [if_neg (by rw [h1]; omega)]
  · rfl

theorem pyLower_isHexDigit {c : Char} (h : isHexDigitCh c = true) :
    isHexDigitCh (pyLower c) = true := by
  unfold isHexDigitCh at h ⊢
  unfold pyLower
  split
  · next hc =>
    have h1 : (Char.ofNat (c.toNat + 32)).toNat = c.toNat + 32 :=
      charOfNat_toNat (by omega)
    rw [h1]
    simp only [Bool.or_eq_true, Bool.and_eq_true, decide_eq_true_eq] at h ⊢
    omega
  · exact h

theorem parseHexBody_digits {l h : PyStr} (e : parseHexBody l = some h) :
    ∀ c ∈ h, isHexDigitCh c = true := by
  induction l generalizing h with
  | nil => simp [parseHexBody] at e
  | cons c rest ih =>
    unfold parseHexBody at e
    by_cases hd : isHexDigitCh c = true
    · rw [if_pos hd] at e
      cases hp : parseHexBody rest with
      | none => rw [hp] at e; simp at e
      | some h' =>
        rw [hp] at e
        simp only [Option.map_some', Option.some.injEq] at e
        intro x hx
        rw [← e] at hx
        rcases List.mem_cons.mp hx with rfl | hx
        · exact hd
        · exact ih hp x hx
    · rw [if_neg (by simpa using hd)] at e
      split at e
      · simp only [Option.some.injEq] at e
        intro x hx
        rw [← e] at hx
        simp at hx
      · simp at e

theorem parseHexBody_append (h : PyStr)
    (hd : ∀ c ∈ h, isHexDigitCh c = true) :
    parseHexBody (h ++ [']']) = some h := by
  induction h with
  | nil => decide
  | cons c rest ih =>
    have hc : isHexDigitCh c = true := hd c (by simp)
    rw [List.cons_append]
    unfold parseHexBody
    rw [if_pos hc, ih (fun x hx => hd x (List.mem_cons_of_mem _ hx))]
    rfl

theorem hexSaltMatch_digits {s h : PyStr} (e : hexSaltMatch s = some h) :
    ∀ c ∈ h, isHexDigitCh c = true := by
  unfold hexSaltMatch at e
  split at e
  · exact parseHexBody_digits e
  · simp at e

theorem hexSaltMatch_canonical (h : PyStr)
    (hd : ∀ c ∈ h, isHexDigitCh c = true) :
    hexSaltMatch ('$' :: 'H' :: 'E' :: 'X' :: '[' :: (h ++ [']'])) = some h :=
  parseHexBody_append h hd

theorem canonicalize_salt_idem (s : PyStr) (hex : String) :
    canonicalize_salt (canonicalize_salt s hex) hex =
      canonicalize_salt s hex := by
  unfold canonicalize_salt
  by_cases hk : hex = "keep"
  · simp [hk]
  · simp only [hk, if_false]
    cases hm : hexSaltMatch s with
    | none => rw [hm]
    | some h =>
      have hd : ∀ c ∈ h.map pyLower, isHexDigitCh c = true := by
        intro x hx
        rcases List.mem_map.mp hx with ⟨y, hy, rfl⟩
        exact pyLower_isHexDigit (hexSaltMatch_digits hm y hy)
      rw [hexSaltMatch_canonical (h.map pyLower) hd]
      simp only [List.cons.injEq, List.append_cancel_right_eq, true_and]
      rw [List.map_map]
      exact List.map_congr_left fun x _ => pyLower_idem x

/-- Claim C4: `canonicalize_salt` is idempotent (for every mode string,
in particular `"keep"` and `"decode"`); under `"keep"` it is the
identity; under `"decode"` a key not matching the `$HEX[...]` wrapper is
returned unchanged, and `"$HEX[4A]"` becomes `"$HEX[4a]"`. -/
theorem C4_canonicalize_idempotent (s : PyStr) (hex : String)
    (hmode : hex = "keep" ∨ hex = "decode") :
    canonicalize_salt (canonicalize_salt s hex) hex =
        canonicalize_salt s hex ∧
      canonicalize_salt s "keep" = s ∧
      (hexSaltMatch s = none → canonicalize_salt s "decode" = s) ∧
      canonicalize_salt "$HEX[4A]".toList "decode" = "$HEX[4a]".toList := by
  refine ⟨canonicalize_salt_idem s hex, rfl, ?_, by decide⟩
  intro hm
  unfold canonicalize_salt
  rw [hm]
  rfl

/-- Witness for claim C4 at the key `"abc"` (no `$HEX[...]` wrapper) and
mode `"decode"`. -/
theorem C4_canonicalize_idempotent_witness :
    (("decode" : String) = "keep" ∨ ("decode" : String) = "decode") ∧
      canonicalize_salt (canonicalize_salt "abc".toList "decode") "decode" =
        canonicalize_salt "abc".toList "decode" ∧
      canonicalize_salt "abc".toList "decode" = "abc".toList :=
  ⟨Or.inr rfl,
    (C4_canonicalize_idempotent "abc".toList "decode" (Or.inr rfl)).1,
    (C4_canonicalize_idempotent "abc".toList "decode" (Or.inr rfl)).2.2.1
      (by decide)⟩

/-! ### Claim C10: extraction ignores trailing line breaks -/

theorem rstripCRLF_append_newline (s : PyStr) :
    rstripCRLF (s ++ ['\n']) = rstripCRLF s := by
  unfold rstripCRLF
  rw [List.reverse_append]
  rfl

theorem rstripCRLF_append_crlf (s : PyStr) :
    rstripCRLF (s ++ ['\r', '\n']) = rstripCRLF s := by
  unfold rstripCRLF
  rw [List.reverse_append]
  rfl

/-- Claim C10: appending `"\n"` or `"\r\n"` to a line containing no CR
or LF characters does not change the extracted salt, for every
separator. -/
theorem C10_extract_ignores_line_breaks (s sep : PyStr)
    (h1 : '\r' ∉ s) (h2 : '\n' ∉ s) :
    extract_salt (s ++ ['\n']) sep = extract_salt s sep ∧
      extract_salt (s ++ ['\r', '\n']) sep = extract_salt s sep := by
  unfold extract_salt
  rw [rstripCRLF_append_newline, rstripCRLF_append_crlf]
  exact ⟨rfl, rfl⟩

/-- Witness for claim C10 at the record `"a:b"` with separator `":"`. -/
theorem C10_extract_ignores_line_breaks_witness :
    '\r' ∉ "a:b".toList ∧ '\n' ∉ "a:b".toList ∧
      extract_salt ("a:b".toList ++ ['\n']) ":".toList =
        extract_salt "a:b".toList ":".toList :=
  ⟨by decide, by decide,
    (C10_extract_ignores_line_breaks "a:b".toList ":".toList (by decide)
      (by decide)).1⟩

/-! ### Claim C6: the selective emitter -/

theorem foldl_emitLine_spec (sep : PyStr) (hex : String)
    (selected : List PyStr) (lines : List PyStr) (st : EmitResult) :
    lines.foldl (emitLine sep hex selected true) st =
      ⟨st.combined ++ lines.filter (lineSelected sep hex selected),
        st.examined + lines.length,
        st.emitted + (lines.filter (lineSelected sep hex selected)).length⟩ := by
  induction lines generalizing st with
  | nil => simp
  | cons l rest ih =>
    rw [List.foldl_cons, ih]
    cases h : extract_salt l sep with
    | none =>
      simp [emitLine, h, List.filter_cons, lineSelected]
      omega
    | some raw =>
      by_cases hm : canonicalize_salt raw hex ∈ selected <;>
        simp [emitLine, h, hm, List.filter_cons, lineSelected] <;> try omega

/-- Claim C6: with a combined destination, `second_pass_emit` writes to
the combined file exactly the input lines whose canonical key is in the
selection set, in input order; `examined` is the number of input lines
and `emitted` the number of matching lines.  In particular, on
`["h1:saltA", "h2:saltB", "h3:saltA", "bad-line-no-sep"]` with selection
`{"saltA"}` the combined output is `["h1:saltA", "h3:saltA"]` with
`examined = 4` and `emitted = 2`. -/
theorem C6_second_pass_emit_spec (lines : List PyStr) (sep : PyStr)
    (hex : String) (selected : List PyStr) :
    (second_pass_emit lines sep hex selected true).combined =
        lines.filter (lineSelected sep hex selected) ∧
      (second_pass_emit lines sep hex selected true).examined =
        lines.length ∧
      (second_pass_emit lines sep hex selected true).emitted =
        (lines.filter (lineSelected sep hex selected)).length ∧
      second_pass_emit
          ["h1:saltA".toList, "h2:saltB".toList, "h3:saltA".toList,
            "bad-line-no-sep".toList] (":".toList) "keep"
          ["saltA".toList] true =
        ⟨["h1:saltA".toList, "h3:saltA".toList], 4, 2⟩ := by
  unfold second_pass_emit
  rw [foldl_emitLine_spec]
  refine ⟨by simp, by simp, by simp, ?_⟩
  rw [foldl_emitLine_spec]
  decide

/-! ### Python `int()` truncation on non-negative rationals -/

theorem pyInt_eq_floor {q : ℚ} (h : 0 ≤ q) : pyInt q = ⌊q⌋ := by
  unfold pyInt
  rw [Rat.floor_def]
  exact Int.tdiv_eq_ediv (Rat.num_nonneg.mpr h) (Int.natCast_nonneg _)

theorem pyInt_le_self {q : ℚ} (h : 0 ≤ q) : (pyInt q : ℚ) ≤ q := by
  rw [pyInt_eq_floor h]
  exact Int.floor_le q

theorem le_pyInt {q : ℚ} {n : ℤ} (h0 : 0 ≤ q) (h : (n : ℚ) ≤ q) :
    n ≤ pyInt q := by
  rw [pyInt_eq_floor h0]
  exact Int.le_floor.mpr h

theorem pyInt_eval {q : ℚ} {z : ℤ} (h0 : 0 ≤ q) (h1 : (z : ℚ) ≤ q)
    (h2 : q < z + 1) : pyInt q = z := by
  rw [pyInt_eq_floor h0]
  exact Int.floor_eq_iff.mpr ⟨h1, h2⟩

/-! ### Claim C7: degenerate samples yield no estimate -/

/-- Claim C7: whenever the sampling loop reads zero lines or finds zero
lines with a valid key, `preflight_estimate` returns `None` as its memory
figure — never a zero or negative byte count. -/
theorem C7_preflight_no_estimate (p : PreflightParams) (input : List PyStr)
    (h : (sampleLoop p input ⟨0, 0, [], 0, 0⟩).lines = 0 ∨
      (sampleLoop p input ⟨0, 0, [], 0, 0⟩).valid = 0) :
    (preflight_estimate p input).mem_est = none := by
  unfold preflight_estimate
  rw [if_pos h]

/-- Parameter values mirroring the CLI defaults, used by witnesses. -/
def pDefault : PreflightParams :=
  ⟨":".toList, "keep", fun l => l.length + 1, 200000, false, some 1000,
    10, 1, 200, 2⟩

/-- Witness for claim C7 on an empty input (zero lines sampled). -/
theorem C7_preflight_no_estimate_witness :
    ((sampleLoop pDefault [] ⟨0, 0, [], 0, 0⟩).lines = 0 ∨
      (sampleLoop pDefault [] ⟨0, 0, [], 0, 0⟩).valid = 0) ∧
      (preflight_estimate pDefault []).mem_est = none :=
  ⟨Or.inl rfl, C7_preflight_no_estimate pDefault [] (Or.inl rfl)⟩

/-! ### Claim C8: bounds on the projected unique-key count -/

theorem pyInt_min_max_bounds (L : ℤ) (u : ℕ) (X : ℚ) (hL : 1 ≤ L) :
    pyInt (min (L : ℚ) (max (u : ℚ) X)) ≤ L ∧
      ((u : ℤ) ≤ L → (u : ℤ) ≤ pyInt (min (L : ℚ) (max (u : ℚ) X))) := by
  have hges : (0 : ℚ) ≤ min (L : ℚ) (max (u : ℚ) X) := by
    refine le_min ?_ (le_trans (by positivity) (le_max_left _ _))
    exact_mod_cast le_trans zero_le_one hL
  constructor
  · have h1 : (pyInt (min (L : ℚ) (max (u : ℚ) X)) : ℚ) ≤ (L : ℚ) :=
      le_trans (pyInt_le_self hges) (min_le_left _ _)
    exact_mod_cast h1
  · intro hu
    refine le_pyInt hges (le_min ?_ (le_max_left _ _))
    exact_mod_cast hu

/-- Claim C8 (amended): whenever `preflight_estimate` has a projected
total line count, the projected unique-key count is at most that
projection; and whenever the projection is at least the observed sample
uniqueness, the projected unique count is also at least the observed
sample uniqueness.  (The cap `min` is applied after the floor `max`, so
when the projected total falls below the observed uniqueness the cap
wins and the floor fails — see the counterexample.) -/
theorem C8_uniq_est_bounds (p : PreflightParams) (input : List PyStr) (L : ℤ)
    (hL : (preflight_estimate p input).lines_est = some L) :
    (preflight_estimate p input).uniq_est ≤ L ∧
      (((preflight_estimate p input).uniq_sample : ℤ) ≤ L →
        ((preflight_estimate p input).uniq_sample : ℤ) ≤
          (preflight_estimate p input).uniq_est) := by
  unfold preflight_estimate at hL ⊢
  by_cases hdeg : (sampleLoop p input ⟨0, 0, [], 0, 0⟩).lines = 0 ∨
      (sampleLoop p input ⟨0, 0, [], 0, 0⟩).valid = 0
  · rw [if_pos hdeg] at hL
    exact absurd hL (by simp)
  · rw [if_neg hdeg] at hL ⊢
    cases hgz : p.is_gz with
    | true => rw [hgz] at hL; simp at hL
    | false =>
      cases hgs : p.getsize with
      | none => rw [hgz, hgs] at hL; simp at hL
      | some tb =>
        rw [hgz, hgs] at hL
        simp only [if_true, Option.some.injEq] at hL
        subst hL
        dsimp only
        exact pyInt_min_max_bounds _ _ _ (le_max_left _ _)

/-- An input on which the projected total line count falls below the
observed sample uniqueness: two lines with two distinct keys, whose
re-encoded byte lengths (`len(line.encode(encoding, errors="ignore"))`,
here 6 and 9 — e.g. undecodable raw bytes replaced by multi-byte
replacement characters under `errors="replace"`) sum to 15, while the
file size on disk is 9 bytes. -/
def pC8x : PreflightParams :=
  ⟨":".toList, "keep", fun l => if l = "a:x".toList then 6 else 9, 200000,
    false, some 9, 10, 1, 200, 2⟩

def inputC8 : List PyStr := ["a:x".toList, "b:yy".toList]

theorem sampleC8 : sampleLoop pC8x inputC8 ⟨0, 0, [], 0, 0⟩ =
    ⟨2, 2, ["x".toList, "yy".toList], 3, 15⟩ := by decide

/-- Claim C8, counterexample.  On `inputC8` the sample sees 2 lines and
2 distinct keys, but the projected total line count is
`max(1, int(9 / 7.5)) = 1`, and the projected unique-key count is
`int(min(1, max(2, 1·(2/2)·1))) = 1 < 2`: the claimed floor at the
observed sample uniqueness does not hold. -/
theorem C8_counterexample :
    (preflight_estimate pC8x inputC8).lines_est = some 1 ∧
      (preflight_estimate pC8x inputC8).uniq_sample = 2 ∧
      (preflight_estimate pC8x inputC8).uniq_est = 1 ∧
      ¬ (((preflight_estimate pC8x inputC8).uniq_sample : ℤ) ≤
          (preflight_estimate pC8x inputC8).uniq_est) := by
  unfold preflight_estimate
  rw [sampleC8]
  rw [if_neg (by simp)]
  simp only [pC8x]
  norm_num
  have hp : pyInt (6 / 5 : ℚ) = 1 :=
    pyInt_eval (by norm_num) (by norm_num) (by norm_num)
  rw [hp]
  norm_num
  have h1 : pyInt (1 : ℚ) = (1 : ℤ) :=
    pyInt_eval (by norm_num) (by norm_num) (by norm_num)
  rw [h1]
  norm_num

/-- A benign estimator input for the witness of the amended claim C8:
two lines, one distinct key, 5 bytes per line, 100 bytes on disk. -/
def pC8w : PreflightParams :=
  ⟨":".toList, "keep", fun _ => 5, 200000, false, some 100, 10, 1, 200, 2⟩

def inputC8w : List PyStr := ["a:x".toList, "b:x".toList]

theorem preflightC8w_fields :
    (preflight_estimate pC8w inputC8w).lines_est = some 20 ∧
      (preflight_estimate pC8w inputC8w).uniq_sample = 1 := by
  unfold preflight_estimate
  rw [(by decide : sampleLoop pC8w inputC8w ⟨0, 0, [], 0, 0⟩ =
    ⟨2, 2, ["x".toList], 2, 10⟩)]
  rw [if_neg (by simp)]
  simp only [pC8w]
  norm_num
  have h2 : pyInt (20 : ℚ) = (20 : ℤ) :=
    pyInt_eval (by norm_num) (by norm_num) (by norm_num)
  rw [h2]
  norm_num

/-- Witness for claim C8 (amended) at the benign input. -/
theorem C8_uniq_est_bounds_witness :
    (preflight_estimate pC8w inputC8w).lines_est = some 20 ∧
      (preflight_estimate pC8w inputC8w).uniq_est ≤ 20 ∧
      ((preflight_estimate pC8w inputC8w).uniq_sample : ℤ) ≤
        (preflight_estimate pC8w inputC8w).uniq_est :=
  ⟨preflightC8w_fields.1,
    (C8_uniq_est_bounds pC8w inputC8w 20 preflightC8w_fields.1).1,
    (C8_uniq_est_bounds pC8w inputC8w 20 preflightC8w_fields.1).2
      (by rw [preflightC8w_fields.2]; norm_num)⟩

end SaltAnalyzer
